import Mathlib

/-
  Verification of the sync and accounting core of the lib-wallet-chain-btc
  repository, as a shallow embedding in Lean 4.

  The embedding follows src/src/sync-manager.js, src/src/address-watch.js and
  src/src/wallet-pay-btc.js. Stores that live outside src (address-manager.js,
  total-balance.js, unspent-store.js, the lib-wallet HdWallet and WalletPay
  base classes) are modelled from the specification, as noted on each
  definition. Machine numbers of the source (JS doubles used as integers) are
  modelled as Nat for satoshi amounts and Int for block heights.
-/

namespace BtcWallet

/-- Lifecycle state of a transaction as returned by SyncManager getTxState. -/
inductive TxState
  | mempool
  | pending
  | confirmed
deriving DecidableEq, Repr

/-- Direction classification of a transaction relative to the wallet,
mirroring the TxEntry constants INCOMING, OUTGOING, INTERNAL, UNKNOWN. -/
inductive Direction
  | incoming
  | outgoing
  | internal
  | unknown
deriving DecidableEq, Repr

/-- Signals returned by a path visit inside hdWallet.eachAccount. -/
inductive Signal
  | hasTx
  | noTx
  | stop
deriving DecidableEq, Repr

/-- Marker for the two utxo lists of a transaction, the string literals
used by the source are the words in and out. -/
inductive Inout
  | vin
  | vout
deriving DecidableEq, Repr

/-- A transaction input or output as reported by the provider to
processUtxo. For an output the fields txid and index identify the outpoint,
for an input the fields prev_txid and prev_index do. -/
structure Utxo where
  address : String
  value : Nat
  txid : String
  index : Nat
  prev_txid : String
  prev_index : Nat
deriving DecidableEq, Repr

/-- A transaction of the history fed to processHistory. The source reads
tx.txid, tx.height, tx.out, tx.in and tx.fee; the field named in of the
source is called inp here because in is a Lean keyword. -/
structure Tx where
  txid : String
  height : Int
  out : List Utxo
  inp : List Utxo
  fee : Nat
deriving DecidableEq, Repr

/-- The TxEntry record built by processHistory and persisted by storeTx. -/
structure TxEntry where
  txid : String
  from_address : List String
  to_address : List String
  fee : Nat
  amount : Nat
  height : Int
  direction : Direction
  to_address_meta : List (Nat × Bool)
deriving DecidableEq, Repr

/-- Modelled from the spec: a ledger of an address record is a mapping from
lifecycle state to a mapping from outpoint to amount (address-manager.js is
not part of src). -/
def Ledger : Type := TxState → String → Option Nat

/-- The empty ledger. -/
def emptyLedger : Ledger := fun _ _ => none

/-- Modelled from the spec: addTxid records an amount for an outpoint in a
state bucket of a ledger. -/
def ledgerAdd (l : Ledger) (st : TxState) (pt : String) (v : Nat) : Ledger :=
  fun s p => if s = st ∧ p = pt then some v else l s p

/-- Modelled from the spec: an address balance record has three ledgers,
named in, out and fee in the source. -/
structure Balance where
  bin : Ledger
  bout : Ledger
  bfee : Ledger

/-- A fresh address balance record, as created by newAddress. -/
def emptyBalance : Balance :=
  { bin := emptyLedger, bout := emptyLedger, bfee := emptyLedger }

/-- Selects the in or out ledger of a balance, the bracket access
bal[inout] of the source. -/
def Balance.get (b : Balance) : Inout → Ledger
  | .vin => b.bin
  | .vout => b.bout

/-- The addTxid call of the source on the selected ledger of a balance. -/
def Balance.addTxid (b : Balance) (io : Inout) (st : TxState) (pt : String)
    (v : Nat) : Balance :=
  match io with
  | .vin => { b with bin := ledgerAdd b.bin st pt v }
  | .vout => { b with bout := ledgerAdd b.bout st pt v }

/-- Modelled from the spec: TotalBalance keeps one aggregate per lifecycle
state (total-balance.js is not part of src). -/
structure TotalBalance where
  tmem : Int
  tpend : Int
  tconf : Int
deriving DecidableEq, Repr

/-- Modelled from the spec: addTxId adjusts the aggregate of one state, an
out item credits the wallet and an in item debits it. -/
def TotalBalance.addTxId (t : TotalBalance) (io : Inout) (st : TxState)
    (v : Nat) : TotalBalance :=
  let d : Int := match io with | .vout => (v : Int) | .vin => -(v : Int)
  match st with
  | .mempool => { t with tmem := t.tmem + d }
  | .pending => { t with tpend := t.tpend + d }
  | .confirmed => { t with tconf := t.tconf + d }

/-- The mutable state touched by processHistory: the address store mapping
address to balance record, the transaction log keyed by txid, the set of
addresses known to the HD wallet, the total balance, and the unspent store
items added by unspent.add. The stores themselves live outside src and are
modelled from the spec as mappings. -/
structure SyncState where
  addrStore : String → Option Balance
  txLog : String → Option TxEntry
  hdAddrs : String → Bool
  totalBal : TotalBalance
  unspent : List (Inout × String × Nat)

/-- Static configuration of the SyncManager: the current block height, the
minimum confirmations, and the key manager functions mapping an HD path to
its derived address and script hash. -/
structure Config where
  currentBlock : Int
  minBlockConfirm : Int
  pathToAddr : String → String
  pathToHash : String → String

/-- The getTxState method of SyncManager, src/src/sync-manager.js lines
385 to 390. -/
def getTxState (cfg : Config) (height : Int) : TxState :=
  if height = 0 then .mempool
  else if cfg.currentBlock - height ≥ cfg.minBlockConfirm then .confirmed
  else .pending

/-- The outpoint string built for a utxo: txid and index for an output,
prev_txid and prev_index for an input. -/
def utxoPoint (io : Inout) (u : Utxo) : String :=
  match io with
  | .vout => u.txid ++ ":" ++ toString u.index
  | .vin => u.prev_txid ++ ":" ++ toString u.prev_index

/-- Whether the path given to processUtxo derives exactly the address of
this utxo, the comparison addrObj.addr.address with utxo.address. -/
def pathMatches (cfg : Config) (pathOpt : Option String) (u : Utxo) : Bool :=
  match pathOpt with
  | some p => if cfg.pathToAddr p = u.address then true else false
  | none => false

/-- The newAddress call of the address store: create a fresh balance record
when none exists for this address. -/
def storeNewAddress (s : SyncState) (a : String) : SyncState :=
  if (s.addrStore a).isSome then s
  else { s with addrStore := fun x => if x = a then some emptyBalance else s.addrStore x }

/-- The hdWallet.addAddress call: the derived address becomes known. -/
def hdAdd (s : SyncState) (a : String) : SyncState :=
  { s with hdAddrs := fun x => if x = a then true else s.hdAddrs x }

/-- The tail of a processUtxo iteration for a utxo whose address is owned
by the wallet: skip when the outpoint is already recorded in the state
bucket, otherwise record it in the address ledger, the total balance, the
fee ledger when a fee is given, and the unspent store.
Mirrors src/src/sync-manager.js lines 450 to 478. -/
def processOwn (io : Inout) (st : TxState) (txFee : Nat) (s : SyncState)
    (u : Utxo) : SyncState :=
  let bal := (s.addrStore u.address).getD emptyBalance
  let pt := utxoPoint io u
  if (bal.get io st pt).isSome then s
  else
    let bal1 := bal.addTxid io st pt u.value
    let bal2 := if 0 < txFee then { bal1 with bfee := ledgerAdd bal1.bfee st pt txFee } else bal1
    { s with
      addrStore := fun a => if a = u.address then some bal2 else s.addrStore a,
      totalBal := s.totalBal.addTxId io st u.value,
      unspent := s.unspent ++ [(io, pt, u.value)] }

/-- One iteration of the processUtxo loop of SyncManager,
src/src/sync-manager.js lines 420 to 479: ensure a balance record exists,
determine ownership from the HD wallet or the given path (adding the path
derived address to the HD wallet when needed), and either skip the utxo or
record it. Returns the own_addr flag assigned to the utxo and the new
state. -/
def processUtxoItem (cfg : Config) (pathOpt : Option String) (io : Inout)
    (st : TxState) (txFee : Nat) (s : SyncState) (u : Utxo) : Bool × SyncState :=
  let s1 := storeNewAddress s u.address
  if s.hdAddrs u.address then (true, processOwn io st txFee s1 u)
  else
    match pathOpt with
    | some p =>
      if cfg.pathToAddr p = u.address then
        (true, processOwn io st txFee (hdAdd s1 u.address) u)
      else (false, s1)
    | none => (false, s1)

/-- The processUtxo method of SyncManager over a utxo list, returning each
utxo paired with its own_addr flag together with the final state. -/
def processUtxo (cfg : Config) (pathOpt : Option String) (io : Inout)
    (st : TxState) (txFee : Nat) (s : SyncState) :
    List Utxo → List (Utxo × Bool) × SyncState
  | [] => ([], s)
  | u :: us =>
    let r := processUtxoItem cfg pathOpt io st txFee s u
    let rs := processUtxo cfg pathOpt io st txFee r.2 us
    ((u, r.1) :: rs.1, rs.2)

/-- The direction classification of processHistory,
src/src/sync-manager.js lines 243 to 252, over the flagged output and input
lists and the raw list lengths tx.out.length and tx.in.length. -/
def classifyDirection (outs ins : List (Utxo × Bool)) (nOut nIn : Nat) :
    Direction :=
  if (outs.filter (fun x => x.2)).length = nOut ∧
      (ins.filter (fun x => x.2)).length = nIn then .internal
  else if (ins.filter (fun x => x.2)).length = 0 then .incoming
  else if 0 < (outs.filter (fun x => x.2)).length then .outgoing
  else .unknown

/-- The totalOutput reduce of processHistory, src/src/sync-manager.js lines
254 to 264: sum the values of owned outputs for incoming and internal
transactions and of foreign outputs for outgoing transactions. -/
def txAmount (dir : Direction) (outs : List (Utxo × Bool)) : Nat :=
  outs.foldl (fun sum x =>
    if (dir = .incoming ∨ dir = .internal) ∧ x.2 = true then sum + x.1.value
    else if dir = .outgoing ∧ x.2 = false then sum + x.1.value
    else sum) 0

/-- The storeTx persistence of a TxEntry in the transaction log, keyed by
txid. -/
def logSet (k : String) (v : TxEntry) (m : String → Option TxEntry) :
    String → Option TxEntry :=
  fun t => if t = k then some v else m t

/-- The body of the processHistory loop of SyncManager for a single
transaction, src/src/sync-manager.js lines 231 to 287: compute the state,
process outputs then inputs, classify the direction, compute the amount,
build the TxEntry and persist it. -/
def processHistoryTx (cfg : Config) (pathOpt : Option String) (s : SyncState)
    (tx : Tx) : TxEntry × SyncState :=
  let st := getTxState cfg tx.height
  let r1 := processUtxo cfg pathOpt .vout st tx.fee s tx.out
  let r2 := processUtxo cfg pathOpt .vin st 0 r1.2 tx.inp
  let dir := classifyDirection r1.1 r2.1 tx.out.length tx.inp.length
  let entry : TxEntry :=
    { txid := tx.txid
      from_address := tx.inp.map (fun u => u.address)
      to_address := tx.out.map (fun u => u.address)
      fee := tx.fee
      amount := txAmount dir r1.1
      height := tx.height
      direction := dir
      to_address_meta := r1.1.map (fun x => (x.1.value, x.2)) }
  (entry, { r2.2 with txLog := logSet tx.txid entry r2.2.txLog })

/-- The processHistory method of SyncManager over a transaction history,
returning the list of new TxEntry records and the final state. -/
def processHistory (cfg : Config) (pathOpt : Option String) (s : SyncState) :
    List Tx → List TxEntry × SyncState
  | [] => ([], s)
  | t :: ts =>
    let r := processHistoryTx cfg pathOpt s t
    let rs := processHistory cfg pathOpt r.2 ts
    (r.1 :: rs.1, rs.2)

/-- The own_addr flags the processHistory body computes for the outputs and
the inputs of a transaction, the lists outs and ins of the source. -/
def processedFlags (cfg : Config) (pathOpt : Option String) (s : SyncState)
    (tx : Tx) : List (Utxo × Bool) × List (Utxo × Bool) :=
  let st := getTxState cfg tx.height
  let r1 := processUtxo cfg pathOpt .vout st tx.fee s tx.out
  let r2 := processUtxo cfg pathOpt .vin st 0 r1.2 tx.inp
  (r1.1, r2.1)

/-- The processPath method of SyncManager, src/src/sync-manager.js lines
299 to 318: derive the script hash of the path, ask the provider for the
address history, return stop when the request throws or the halt flag is
set, noTx for an empty history, and otherwise process the history with the
path and return hasTx. The provider is a function from script hash to a
result that either throws or yields a history. -/
def processPath (cfg : Config) (provider : String → Except String (List Tx))
    (halt : Bool) (path : String) (s : SyncState) : Signal × SyncState :=
  match provider (cfg.pathToHash path) with
  | .error _ => (.stop, s)
  | .ok txHistory =>
    if halt then (.stop, s)
    else if txHistory.length = 0 then (.noTx, s)
    else (.hasTx, (processHistory cfg (some path) s txHistory).2)

/-- The watchTxMempool method of SyncManager, src/src/sync-manager.js lines
167 to 170: register a txid for a mempool event unless already
registered. -/
def watchTxMempool (txid : String) (evs : List String) : List String :=
  if txid ∈ evs then evs else evs ++ [txid]

/-- The emitTxEvent method of SyncManager, src/src/sync-manager.js lines
175 to 181: when the transaction is in the mempool and its txid is
registered, remove the first occurrence of the txid from the registration
list and emit the event for it. Returns the new registration list and the
txid of the emitted event if any; the event channel of the source is the
string tx:mempool: followed by the txid. -/
def emitTxEvent (tx : Tx) (evs : List String) : List String × Option String :=
  if tx.height = 0 ∧ tx.txid ∈ evs then (evs.erase tx.txid, some tx.txid)
  else (evs, none)

/-- A sequence of emitTxEvent calls, collecting the emitted events. -/
def runEmits (evs : List String) : List Tx → List String × List String
  | [] => (evs, [])
  | t :: ts =>
    let r := emitTxEvent t evs
    let rs := runEmits r.1 ts
    (rs.1, r.2.toList ++ rs.2)

/-- Result of a provider subscribeToAddress call as watchAddress inspects
it: either a status hash, or a value carrying a message property. -/
inductive SubRes
  | ok (h : String)
  | err (m : String)
deriving DecidableEq, Repr

/-- The watchAddress method of AddressWatch, src/src/address-watch.js lines
47 to 59: when the stored list is at or over capacity drop its first entry,
subscribe to the script hash, throw when the subscription result carries a
message, and otherwise persist the list with the new pair appended. An
error result means the persisted list is left unchanged because
addWatchedScriptHashes is never reached. -/
def watchAddressAW (maxScriptWatch : Nat) (hashList : List (String × String))
    (scriptHash : String) (sub : SubRes) :
    Except String (List (String × String)) :=
  let hl := if hashList.length ≥ maxScriptWatch then hashList.drop 1 else hashList
  match sub with
  | .err m => .error ("Failed to subscribe to address " ++ m)
  | .ok balHash => .ok (hl ++ [(scriptHash, balHash)])

/-- Modelled from the spec: the makeRequest plumbing of the WalletPay base
class (lib-wallet, not in src) forwards a method name and parameters to the
provider rpc, which rejects when the client is not connected and otherwise
answers from the connected server. -/
def electrumMakeRequest (clientConnected : Bool)
    (respond : String → List String → String) (method : String)
    (params : List String) : Except String String :=
  if clientConnected then .ok (respond method params)
  else .error "client not connected"

/-- The isValidAddress method of WalletPayBitcoin,
src/src/wallet-pay-btc.js lines 312 to 314: issue a
blockchain.address.get_balance request for the address through the
provider and return its response. The opts argument of the source is
unused. -/
def isValidAddress (clientConnected : Bool)
    (respond : String → List String → String) (_opts : Unit)
    (address : String) : Except String String :=
  electrumMakeRequest clientConnected respond "blockchain.address.get_balance"
    [address]

/-- The wallet level state seen by syncAccount: the halt and isSyncing
flags of SyncManager, the HD sync cursor and the provider cache (both
modelled from the spec, since hdWallet and the provider cache live outside
src), and the sync stores. -/
structure WalletState where
  halt : Bool
  isSyncing : Bool
  hdCursor : Nat
  providerCache : List (String × String)
  sync : SyncState

/-- Modelled from the spec: addr.clear empties the address store including
its transaction log. -/
def clearedAddr (s : SyncState) : SyncState :=
  { s with addrStore := fun _ => none, txLog := fun _ => none }

/-- The syncAccount method of SyncManager, src/src/sync-manager.js lines
324 to 341 for the part the claim is about: throw when halted or already
syncing, set the isSyncing flag, and under the restart option reset the HD
sync cursor, clear the provider cache and clear the address store before
the scan begins. The scan itself, hdWallet.eachAccount with processPath
visits, lives in the external lib-wallet package and is abstracted as the
function applied to the prepared state. -/
def syncAccount (restart : Bool) (scan : WalletState → WalletState)
    (w : WalletState) : Except String WalletState :=
  if w.halt || w.isSyncing then
    .error ("halted:" ++ toString w.halt ++ " is syncing: " ++ toString w.isSyncing)
  else
    let w1 : WalletState := { w with isSyncing := true }
    let w2 : WalletState :=
      if restart then
        { w1 with hdCursor := 0, providerCache := [], sync := clearedAddr w1.sync }
      else w1
    .ok (scan w2)

/-- Result of the updateScriptHashBalance handler: the state after the
history processing, whether unspent.process was reached, and the error the
handler raised if any. -/
structure ShbResult where
  state : SyncState
  unspentProcessed : Bool
  err : Option String

/-- The process closure inside updateScriptHashBalance,
src/src/sync-manager.js lines 112 to 122: for every watched pair whose
script hash equals the notified one, whose stored status hash differs from
the new one, and while not halted, fetch the mempool history of the script
hash with cache false and feed it to processHistory without a path. -/
def shbProcessList (cfg : Config) (provider : String → List Tx)
    (changeScriptHash changeHash : String) (halt : Bool) (s : SyncState)
    (data : List (String × String)) : SyncState :=
  data.foldl (fun st p =>
    if p.1 = changeScriptHash ∧ p.2 ≠ changeHash ∧ halt = false then
      (processHistory cfg none st (provider p.1)).2
    else st) s

/-- The updateScriptHashBalance method of SyncManager,
src/src/sync-manager.js lines 108 to 130: process the external then the
internal watched list, then call addrWatch.stopWatching on the internal
list, then unspent.process. The AddressWatch class of
src/src/address-watch.js defines only startWatching, watchAddress and
getWatchedAddress, so the stopWatching call raises a TypeError and the
unspent.process call on line 129 is never reached. -/
def updateScriptHashBalance (cfg : Config) (provider : String → List Tx)
    (changeScriptHash changeHash : String) (halt : Bool)
    (extlist inlist : List (String × String)) (s : SyncState) : ShbResult :=
  let s1 := shbProcessList cfg provider changeScriptHash changeHash halt s extlist
  let s2 := shbProcessList cfg provider changeScriptHash changeHash halt s1 inlist
  { state := s2
    unspentProcessed := false
    err := some "TypeError: _addrWatch.stopWatching is not a function" }

/-- The direction classification exactly as the specification sentence
states it: internal when all outputs and all inputs are owned, incoming
when no input is owned, outgoing when some input is owned and at least one
output exists, unknown otherwise. Written from the spec wording for
comparison with the code classifier. -/
def claimDirection (outs ins : List (Utxo × Bool)) : Direction :=
  if (∀ x ∈ outs, x.2 = true) ∧ (∀ x ∈ ins, x.2 = true) then .internal
  else if ∀ x ∈ ins, x.2 = false then .incoming
  else if (∃ x ∈ ins, x.2 = true) ∧ 0 < outs.length then .outgoing
  else .unknown

/-- A concrete configuration for counterexamples and witnesses. -/
def cexCfg : Config :=
  { currentBlock := 10, minBlockConfirm := 1,
    pathToAddr := fun _ => "P", pathToHash := fun p => p }

/-- A concrete wallet state whose HD wallet knows exactly the address A. -/
def cexState : SyncState :=
  { addrStore := fun _ => none
    txLog := fun _ => none
    hdAddrs := fun a => a == "A"
    totalBal := { tmem := 0, tpend := 0, tconf := 0 }
    unspent := [] }

/-- A concrete mempool transaction spending from the wallet address A to
the foreign address B with no change output. -/
def cexTx : Tx :=
  { txid := "t1"
    height := 0
    out := [{ address := "B", value := 5, txid := "t1", index := 0,
              prev_txid := "", prev_index := 0 }]
    inp := [{ address := "A", value := 7, txid := "t1", index := 0,
              prev_txid := "t0", prev_index := 0 }]
    fee := 2 }

/-- C5: getTxState returns mempool precisely for height zero, confirmed
precisely when the height is nonzero and the current block minus the
height reaches minBlockConfirm, and pending otherwise. -/
theorem getTxState_characterization (cfg : Config) (h : Int) :
    (getTxState cfg h = TxState.mempool ↔ h = 0) ∧
    (getTxState cfg h = TxState.confirmed ↔
      h ≠ 0 ∧ cfg.currentBlock - h ≥ cfg.minBlockConfirm) ∧
    (getTxState cfg h = TxState.pending ↔
      h ≠ 0 ∧ ¬(cfg.currentBlock - h ≥ cfg.minBlockConfirm)) := by
  unfold getTxState
  by_cases h0 : h = 0 <;>
    by_cases hc : cfg.currentBlock - h ≥ cfg.minBlockConfirm <;>
      simp [h0, hc]

/-- C9: under the bound holding before the call and a positive capacity,
watchAddress with a successful subscription persists a list that still
respects the bound, and when the list was exactly at capacity the oldest
entry is dropped and the new pair appended. -/
theorem watchAddress_bound_fifo (maxScriptWatch : Nat)
    (hashList : List (String × String)) (scriptHash balHash : String)
    (hmax : 1 ≤ maxScriptWatch) (hlen : hashList.length ≤ maxScriptWatch) :
    ∃ l, watchAddressAW maxScriptWatch hashList scriptHash (SubRes.ok balHash)
        = .ok l ∧
      l.length ≤ maxScriptWatch ∧
      (hashList.length = maxScriptWatch →
        l = hashList.drop 1 ++ [(scriptHash, balHash)]) := by
  unfold watchAddressAW
  by_cases hge : hashList.length ≥ maxScriptWatch
  · have heq : hashList.length = maxScriptWatch := le_antisymm hlen hge
    refine ⟨hashList.drop 1 ++ [(scriptHash, balHash)], by simp [hge], ?_, fun _ => rfl⟩
    have : (hashList.drop 1).length = maxScriptWatch - 1 := by
      simp [List.length_drop, heq]
    simp [this]
    omega
  · refine ⟨hashList ++ [(scriptHash, balHash)], by simp [hge], ?_, ?_⟩
    · have : hashList.length < maxScriptWatch := Nat.lt_of_not_le hge
      simp
      omega
    · intro hcontra
      exact absurd (le_of_eq hcontra.symm) hge

/-- C9 witness at a concrete list at capacity two. -/
theorem watchAddress_bound_fifo_witness :
    ∃ l, watchAddressAW 2 [("a", "x"), ("b", "y")] "c" (SubRes.ok "z")
        = .ok l ∧
      l.length ≤ 2 ∧
      ([("a", "x"), ("b", "y")].length = 2 →
        l = [("a", "x"), ("b", "y")].drop 1 ++ [("c", "z")]) :=
  watchAddress_bound_fifo 2 [("a", "x"), ("b", "y")] "c" "z"
    (by decide) (by decide)

/-- C10: for any connected provider and any address, isValidAddress issues
the blockchain.address.get_balance request with the address as its single
parameter and returns the response of the provider without failing. -/
theorem isValidAddress_provider_balance
    (respond : String → List String → String) (address : String) :
    isValidAddress true respond () address =
      Except.ok (respond "blockchain.address.get_balance" [address]) := rfl

/-- C3 counterexample: when the provider request for a path throws a
transport error, processPath returns the stop signal, which is not the
noTx signal the claim states. -/
theorem processPath_transport_error_counterexample :
    (processPath cexCfg (fun _ => Except.error "ETIMEDOUT") false "m0"
        cexState).1 = Signal.stop ∧
    (processPath cexCfg (fun _ => Except.error "ETIMEDOUT") false "m0"
        cexState).1 ≠ Signal.noTx :=
  ⟨rfl, by decide⟩

/-- C3 amended: when the provider request for the script hash of the path
fails, processPath logs the error and returns the stop signal with the
state untouched, so the scan is aborted rather than continued. -/
theorem processPath_transport_error_stops (cfg : Config)
    (provider : String → Except String (List Tx)) (halt : Bool)
    (path : String) (s : SyncState) (e : String)
    (herr : provider (cfg.pathToHash path) = Except.error e) :
    processPath cfg provider halt path s = (Signal.stop, s) := by
  unfold processPath
  rw [herr]

/-- C3 witness at a concrete failing provider. -/
theorem processPath_transport_error_stops_witness :
    processPath cexCfg (fun _ => Except.error "ECONNRESET") false "m0"
      cexState = (Signal.stop, cexState) :=
  processPath_transport_error_stops cexCfg
    (fun _ => Except.error "ECONNRESET") false "m0" cexState "ECONNRESET" rfl

/-- C4: at a concrete script hash change notification whose stored status
hash differs from the new one, with sync not halted, the handler raises
the TypeError for the missing stopWatching method of AddressWatch and the
unspent.process call is never reached. -/
theorem updateScriptHashBalance_typeError :
    (updateScriptHashBalance cexCfg (fun _ => [cexTx]) "abc" "h2" false
        [("abc", "h1")] [] cexState).unspentProcessed = false ∧
    (updateScriptHashBalance cexCfg (fun _ => [cexTx]) "abc" "h2" false
        [("abc", "h1")] [] cexState).err
      = some "TypeError: _addrWatch.stopWatching is not a function" :=
  ⟨rfl, rfl⟩

/-- C7: syncAccount fails with the halted error exactly when the halt flag
or the isSyncing flag is set, and under the valid precondition with the
restart option it runs the scan on the state whose isSyncing flag is set,
HD cursor is reset, provider cache is cleared and address store is
cleared. -/
theorem syncAccount_guard_restart (restart : Bool)
    (scan : WalletState → WalletState) (w : WalletState) :
    ((w.halt || w.isSyncing) = true →
      syncAccount restart scan w =
        .error ("halted:" ++ toString w.halt ++ " is syncing: "
          ++ toString w.isSyncing)) ∧
    ((w.halt || w.isSyncing) = false → restart = true →
      syncAccount restart scan w =
        .ok (scan { w with isSyncing := true, hdCursor := 0,
                            providerCache := [],
                            sync := clearedAddr w.sync })) := by
  constructor
  · intro hh
    unfold syncAccount
    simp [hh]
  · intro hh hr
    unfold syncAccount
    simp [hh, hr]

/-- A concrete halted wallet state. -/
def wHalted : WalletState :=
  { halt := true, isSyncing := false, hdCursor := 5,
    providerCache := [("k", "v")], sync := cexState }

/-- A concrete idle wallet state satisfying the precondition. -/
def wIdle : WalletState :=
  { halt := false, isSyncing := false, hdCursor := 5,
    providerCache := [("k", "v")], sync := cexState }

/-- C7 witness at the concrete halted and idle states. -/
theorem syncAccount_guard_restart_witness :
    syncAccount true id wHalted =
      .error ("halted:" ++ toString true ++ " is syncing: "
        ++ toString false) ∧
    syncAccount true id wIdle =
      .ok (id { wIdle with isSyncing := true, hdCursor := 0,
                           providerCache := [],
                           sync := clearedAddr wIdle.sync }) :=
  ⟨(syncAccount_guard_restart true id wHalted).1 rfl,
   (syncAccount_guard_restart true id wIdle).2 rfl rfl⟩

/-- Unfolding emitTxEvent when the transaction is in the mempool and
registered. -/
theorem emitTxEvent_pos {tx : Tx} {evs : List String}
    (h : tx.height = 0 ∧ tx.txid ∈ evs) :
    emitTxEvent tx evs = (evs.erase tx.txid, some tx.txid) := by
  unfold emitTxEvent
  rw [if_pos h]

/-- Unfolding emitTxEvent when the guard fails. -/
theorem emitTxEvent_neg {tx : Tx} {evs : List String}
    (h : ¬(tx.height = 0 ∧ tx.txid ∈ evs)) :
    emitTxEvent tx evs = (evs, none) := by
  unfold emitTxEvent
  rw [if_neg h]

/-- Running any sequence of emitTxEvent calls emits a given txid at most as
often as it occurs in the registration list. -/
theorem runEmits_count_le (txid : String) (txs : List Tx) :
    ∀ evs : List String,
      ((runEmits evs txs).2.count txid) ≤ evs.count txid := by
  induction txs with
  | nil => intro evs; simp [runEmits]
  | cons t ts ih =>
    intro evs
    by_cases hc : t.height = 0 ∧ t.txid ∈ evs
    · simp only [runEmits, emitTxEvent_pos hc, Option.toList_some,
        List.singleton_append, List.count_cons]
      by_cases he : t.txid = txid
      · subst he
        have h1 : 0 < evs.count t.txid := List.count_pos_iff.mpr hc.2
        have h2 := ih (evs.erase t.txid)
        rw [List.count_erase_self] at h2
        simp only [beq_self_eq_true, if_true]
        omega
      · have h2 := ih (evs.erase t.txid)
        rw [List.count_erase_of_ne (fun hx => he hx.symm)] at h2
        simp only [he, if_false, beq_iff_eq]
        omega
    · simp only [runEmits, emitTxEvent_neg hc, Option.toList_none,
        List.nil_append]
      exact ih evs

/-- C8: for a fresh registration of a txid, any subsequent sequence of
emitTxEvent calls emits the mempool event of that txid at most once, and
registering an already registered txid is a no-op. -/
theorem watchTxMempool_at_most_once (txid : String) (evs : List String)
    (txs : List Tx) (hfresh : txid ∉ evs) :
    ((runEmits (watchTxMempool txid evs) txs).2.count txid) ≤ 1 ∧
    watchTxMempool txid (watchTxMempool txid evs) = watchTxMempool txid evs := by
  have hreg : (watchTxMempool txid evs).count txid = 1 := by
    unfold watchTxMempool
    rw [if_neg hfresh]
    rw [List.count_append]
    rw [List.count_eq_zero.mpr hfresh]
    simp
  constructor
  · have := runEmits_count_le txid txs (watchTxMempool txid evs)
    omega
  · simp [watchTxMempool, hfresh]

/-- C8 witness: registering a txid once and observing the same mempool
transaction twice yields at most one emission. -/
theorem watchTxMempool_at_most_once_witness :
    ((runEmits (watchTxMempool "t1" []) [cexTx, cexTx]).2.count "t1") ≤ 1 ∧
    watchTxMempool "t1" (watchTxMempool "t1" []) = watchTxMempool "t1" [] :=
  watchTxMempool_at_most_once "t1" [] [cexTx, cexTx] (by decide)

/-- A filtered list keeps every element precisely when the predicate holds
on all elements. -/
theorem filterLenEqAll {α : Type} (p : α → Bool) :
    ∀ l : List α, ((l.filter p).length = l.length ↔ ∀ x ∈ l, p x = true)
  | [] => by simp
  | x :: l => by
    have hle := List.length_filter_le p l
    by_cases hx : p x <;> simp [List.filter_cons, hx, filterLenEqAll p l] <;>
      omega

/-- A filtered list is empty precisely when the predicate fails on all
elements. -/
theorem filterLenZero {α : Type} (p : α → Bool) (l : List α) :
    (l.filter p).length = 0 ↔ ∀ x ∈ l, p x = false := by
  rw [List.length_eq_zero, List.filter_eq_nil_iff]
  simp

/-- A filtered list is nonempty precisely when some element satisfies the
predicate. -/
theorem filterLenPos {α : Type} (p : α → Bool) (l : List α) :
    0 < (l.filter p).length ↔ ∃ x ∈ l, p x = true := by
  rw [List.length_pos]
  constructor
  · intro h
    rcases List.exists_mem_of_ne_nil _ h with ⟨x, hx⟩
    exact ⟨x, List.mem_of_mem_filter hx, List.of_mem_filter hx⟩
  · rintro ⟨x, hx, hpx⟩
    intro hnil
    have hm := List.mem_filter.mpr ⟨hx, hpx⟩
    rw [hnil] at hm
    exact absurd hm (List.not_mem_nil x)

/-- The flagged list returned by processUtxo carries exactly the utxos of
the input list in order. -/
theorem processUtxo_map_fst (cfg : Config) (pathOpt : Option String)
    (io : Inout) (st : TxState) (fee : Nat) :
    ∀ (l : List Utxo) (s : SyncState),
      ((processUtxo cfg pathOpt io st fee s l).1).map Prod.fst = l
  | [], _ => rfl
  | _ :: us, s => by
    simp [processUtxo, processUtxo_map_fst cfg pathOpt io st fee us]

/-- The flagged list returned by processUtxo has the length of the input
list. -/
theorem processUtxo_length (cfg : Config) (pathOpt : Option String)
    (io : Inout) (st : TxState) (fee : Nat) (l : List Utxo) (s : SyncState) :
    ((processUtxo cfg pathOpt io st fee s l).1).length = l.length := by
  conv_rhs => rw [← processUtxo_map_fst cfg pathOpt io st fee l s]
  rw [List.length_map]

/-- The direction classification as the claim reads after amendment: the
outgoing branch requires at least one wallet owned output rather than
merely one output. Written from the amended claim wording for comparison
with the code classifier. -/
def claimDirectionAmended (outs ins : List (Utxo × Bool)) : Direction :=
  if (∀ x ∈ outs, x.2 = true) ∧ (∀ x ∈ ins, x.2 = true) then .internal
  else if ∀ x ∈ ins, x.2 = false then .incoming
  else if ∃ x ∈ outs, x.2 = true then .outgoing
  else .unknown

/-- The code classifier agrees with the amended claim classifier whenever
the length arguments are the true list lengths. -/
theorem classify_eq_amended (outs ins : List (Utxo × Bool)) :
    classifyDirection outs ins outs.length ins.length =
      claimDirectionAmended outs ins := by
  unfold classifyDirection claimDirectionAmended
  simp only [filterLenEqAll, filterLenZero, filterLenPos]

/-- C1 counterexample: for the concrete transaction spending from the
wallet with no wallet owned output, the code assigns UNKNOWN while the
classification of the claim as stated assigns OUTGOING. -/
theorem direction_claim_counterexample :
    (processHistoryTx cexCfg none cexState cexTx).1.direction
        = Direction.unknown ∧
    claimDirection (processedFlags cexCfg none cexState cexTx).1
        (processedFlags cexCfg none cexState cexTx).2
      = Direction.outgoing ∧
    Direction.unknown ≠ Direction.outgoing :=
  ⟨by decide, by decide, by decide⟩

/-- C1 amended: the direction assigned by processHistory follows the
classification of the claim with the outgoing clause strengthened to
require at least one wallet owned output: all outputs and all inputs ours
gives INTERNAL, otherwise no input ours gives INCOMING, otherwise some
input ours and at least one wallet owned output gives OUTGOING, and
otherwise UNKNOWN. -/
theorem direction_classification_amended (cfg : Config)
    (pathOpt : Option String) (s : SyncState) (tx : Tx) :
    (processHistoryTx cfg pathOpt s tx).1.direction =
      claimDirectionAmended (processedFlags cfg pathOpt s tx).1
        (processedFlags cfg pathOpt s tx).2 := by
  unfold processHistoryTx processedFlags
  simp only []
  rw [show tx.out.length =
      ((processUtxo cfg pathOpt .vout (getTxState cfg tx.height) tx.fee s
        tx.out).1).length from
    (processUtxo_length cfg pathOpt .vout (getTxState cfg tx.height) tx.fee
      tx.out s).symm]
  rw [show tx.inp.length =
      ((processUtxo cfg pathOpt .vin (getTxState cfg tx.height) 0
        (processUtxo cfg pathOpt .vout (getTxState cfg tx.height) tx.fee s
          tx.out).2 tx.inp).1).length from
    (processUtxo_length cfg pathOpt .vin (getTxState cfg tx.height) 0
      tx.inp _).symm]
  exact classify_eq_amended _ _

/-- The predicate of the amount sum from the specification: owned outputs
for incoming and internal transactions, foreign outputs for outgoing
transactions. -/
def specAmountPred (d : Direction) (x : Utxo × Bool) : Bool :=
  ((d == Direction.incoming || d == Direction.internal) && x.2) ||
    (d == Direction.outgoing && !x.2)

/-- The totalOutput reduce equals the sum over the outputs selected by the
specification predicate. -/
theorem txAmount_filter (d : Direction) :
    ∀ l : List (Utxo × Bool),
      txAmount d l
        = (((l.filter (specAmountPred d)).map (fun x => x.1.value)).sum) := by
  have aux : ∀ (l : List (Utxo × Bool)) (a : Nat),
      l.foldl (fun sum x =>
        if (d = .incoming ∨ d = .internal) ∧ x.2 = true then sum + x.1.value
        else if d = .outgoing ∧ x.2 = false then sum + x.1.value
        else sum) a
      = a + (((l.filter (specAmountPred d)).map (fun x => x.1.value)).sum) := by
    intro l
    induction l with
    | nil => intro a; simp
    | cons x l ih =>
      intro a
      rw [List.foldl_cons]
      cases hx : x.2 <;> cases d <;>
        simp_all [specAmountPred, List.filter_cons] <;> omega
  intro l
  have h := aux l 0
  simpa [txAmount] using h

/-- C6: the TxEntry amount equals the sum of the values of exactly the
wallet owned outputs when the direction is INCOMING or INTERNAL plus
exactly the foreign outputs when the direction is OUTGOING, with no other
output contributing. -/
theorem txEntry_amount_spec (cfg : Config) (pathOpt : Option String)
    (s : SyncState) (tx : Tx) :
    (processHistoryTx cfg pathOpt s tx).1.amount =
      ((((processedFlags cfg pathOpt s tx).1).filter
          (specAmountPred (processHistoryTx cfg pathOpt s tx).1.direction)).map
        (fun x => x.1.value)).sum := by
  unfold processHistoryTx processedFlags
  simp only []
  exact txAmount_filter _ _

/-- The ownership boolean processUtxo computes for a utxo, as a pure
function of the HD address set: the address is known to the HD wallet or
the given path derives it. -/
def ownB (cfg : Config) (pathOpt : Option String) (hd : String → Bool)
    (u : Utxo) : Bool :=
  hd u.address || pathMatches cfg pathOpt u

/-- The address has a balance record whose selected ledger carries the
outpoint in the state bucket. -/
def balHasPoint (s : SyncState) (a : String) (io : Inout) (st : TxState)
    (pt : String) : Prop :=
  ∃ b, s.addrStore a = some b ∧ (b.get io st pt).isSome

/-- The postcondition processUtxo establishes for one utxo: an owned utxo
has its address known to the HD wallet and its outpoint recorded in the
state bucket of its ledger, and a foreign utxo has a balance record. -/
def ItemDone (cfg : Config) (pathOpt : Option String) (io : Inout)
    (st : TxState) (s : SyncState) (u : Utxo) : Prop :=
  (ownB cfg pathOpt s.hdAddrs u = true →
    s.hdAddrs u.address = true ∧
      balHasPoint s u.address io st (utxoPoint io u)) ∧
  (ownB cfg pathOpt s.hdAddrs u = false → (s.addrStore u.address).isSome)

/-- pathMatches only looks at the address of the utxo. -/
theorem pathMatches_congr (cfg : Config) (pathOpt : Option String)
    {u v : Utxo} (h : v.address = u.address) :
    pathMatches cfg pathOpt v = pathMatches cfg pathOpt u := by
  unfold pathMatches
  cases pathOpt with
  | none => rfl
  | some p => rw [h]

/-- pathMatches holds precisely when the path is present and derives the
address of the utxo. -/
theorem pathMatches_true {cfg : Config} {pathOpt : Option String} {u : Utxo} :
    pathMatches cfg pathOpt u = true ↔
      ∃ p, pathOpt = some p ∧ cfg.pathToAddr p = u.address := by
  cases pathOpt with
  | none => simp [pathMatches]
  | some p => by_cases hc : cfg.pathToAddr p = u.address <;> simp [pathMatches, hc]

/-- Looking up the exact key just added to a ledger. -/
theorem ledgerAdd_self (l : Ledger) (st : TxState) (pt : String) (v : Nat) :
    (ledgerAdd l st pt v) st pt = some v := by
  unfold ledgerAdd
  simp

/-- Adding to a ledger preserves every present entry. -/
theorem ledgerAdd_mono {l : Ledger} {st' : TxState} {pt' : String}
    (st : TxState) (pt : String) (v : Nat) (h : (l st' pt').isSome) :
    ((ledgerAdd l st pt v) st' pt').isSome := by
  unfold ledgerAdd
  split
  · simp
  · exact h

/-- The outpoint just recorded by addTxid is present. -/
theorem balance_addTxid_self (b : Balance) (io : Inout) (st : TxState)
    (pt : String) (v : Nat) :
    (((b.addTxid io st pt v).get io) st pt).isSome := by
  cases io <;> simp [Balance.addTxid, Balance.get, ledgerAdd_self]

/-- addTxid preserves every outpoint already present in any ledger. -/
theorem balance_addTxid_mono {b : Balance} {io' : Inout} {st' : TxState}
    {pt' : String} (io : Inout) (st : TxState) (pt : String) (v : Nat)
    (h : ((b.get io') st' pt').isSome) :
    (((b.addTxid io st pt v).get io') st' pt').isSome := by
  cases io <;> cases io' <;>
    simp only [Balance.addTxid, Balance.get] at h ⊢ <;>
    first
      | exact ledgerAdd_mono st pt v h
      | exact h

/-- Updating the fee ledger does not change the in and out ledgers. -/
theorem balance_feeUpdate_get (b : Balance) (l : Ledger) (io : Inout) :
    ({ b with bfee := l } : Balance).get io = b.get io := by
  cases io <;> rfl

/-- storeNewAddress leaves the HD set, the log, the total balance and the
unspent store untouched. -/
theorem storeNewAddress_others (s : SyncState) (a : String) :
    (storeNewAddress s a).hdAddrs = s.hdAddrs ∧
    (storeNewAddress s a).txLog = s.txLog ∧
    (storeNewAddress s a).totalBal = s.totalBal ∧
    (storeNewAddress s a).unspent = s.unspent := by
  unfold storeNewAddress
  split <;> exact ⟨rfl, rfl, rfl, rfl⟩

/-- After storeNewAddress the address has a record. -/
theorem storeNewAddress_isSome (s : SyncState) (a : String) :
    ((storeNewAddress s a).addrStore a).isSome := by
  unfold storeNewAddress
  split
  · assumption
  · simp

/-- storeNewAddress does not change the record of any address that already
has one. -/
theorem storeNewAddress_lookup {s : SyncState} {x : String} (a : String)
    (h : (s.addrStore x).isSome) :
    (storeNewAddress s a).addrStore x = s.addrStore x := by
  unfold storeNewAddress
  split
  · rfl
  · rename_i hn
    by_cases hx : x = a
    · subst hx
      exact absurd h (by simpa using hn)
    · simp [hx]

/-- storeNewAddress preserves record existence at every address. -/
theorem storeNewAddress_mono {s : SyncState} {x : String} (a : String)
    (h : (s.addrStore x).isSome) :
    ((storeNewAddress s a).addrStore x).isSome := by
  rw [storeNewAddress_lookup a h]
  exact h

/-- storeNewAddress preserves every recorded outpoint. -/
theorem storeNewAddress_balMono {s : SyncState} {x : String} {io : Inout}
    {st : TxState} {pt : String} (a : String)
    (h : balHasPoint s x io st pt) :
    balHasPoint (storeNewAddress s a) x io st pt := by
  obtain ⟨b, hb, hpt⟩ := h
  refine ⟨b, ?_, hpt⟩
  rw [storeNewAddress_lookup a (by simp [hb])]
  exact hb

/-- hdAdd changes only the HD address set. -/
theorem hdAdd_others (s : SyncState) (a : String) :
    (hdAdd s a).addrStore = s.addrStore ∧
    (hdAdd s a).txLog = s.txLog ∧
    (hdAdd s a).totalBal = s.totalBal ∧
    (hdAdd s a).unspent = s.unspent :=
  ⟨rfl, rfl, rfl, rfl⟩

/-- processOwn leaves the HD set and the log untouched. -/
theorem processOwn_others (io : Inout) (st : TxState) (fee : Nat)
    (s : SyncState) (u : Utxo) :
    (processOwn io st fee s u).hdAddrs = s.hdAddrs ∧
    (processOwn io st fee s u).txLog = s.txLog := by
  simp only [processOwn]
  split
  · exact ⟨rfl, rfl⟩
  · exact ⟨rfl, rfl⟩

/-- processOwn on a state where the outpoint of the utxo is already in the
state bucket of its ledger is the identity. -/
theorem processOwn_skip {io : Inout} {st : TxState} {fee : Nat}
    {s : SyncState} {u : Utxo}
    (h : ((((s.addrStore u.address).getD emptyBalance).get io) st
      (utxoPoint io u)).isSome) :
    processOwn io st fee s u = s := by
  simp only [processOwn]
  rw [if_pos h]

/-- A balance record stored at an address is found there with the recorded
outpoint, whatever the other field updates are. -/
theorem balHasPoint_store_self (s : SyncState) (a : String) (b : Balance)
    (tb : TotalBalance) (un : List (Inout × String × Nat))
    {io : Inout} {st : TxState} {pt : String}
    (h : ((b.get io) st pt).isSome) :
    balHasPoint
      { s with addrStore := fun x => if x = a then some b else s.addrStore x,
               totalBal := tb, unspent := un } a io st pt :=
  ⟨b, by simp, h⟩

/-- processOwn establishes the recorded outpoint for its utxo, given the
address has a record. -/
theorem processOwn_establish {io : Inout} {st : TxState} {fee : Nat}
    {s : SyncState} {u : Utxo} (hrec : (s.addrStore u.address).isSome) :
    balHasPoint (processOwn io st fee s u) u.address io st
      (utxoPoint io u) := by
  obtain ⟨b, hb⟩ := Option.isSome_iff_exists.mp hrec
  simp only [processOwn]
  split
  · rename_i hskip
    exact ⟨(s.addrStore u.address).getD emptyBalance, by rw [hb]; rfl, hskip⟩
  · apply balHasPoint_store_self
    split
    · rw [balance_feeUpdate_get]
      exact balance_addTxid_self _ io st (utxoPoint io u) u.value
    · exact balance_addTxid_self _ io st (utxoPoint io u) u.value

/-- processOwn preserves record existence at every address. -/
theorem processOwn_mono {s : SyncState} {x : String} (io : Inout)
    (st : TxState) (fee : Nat) (u : Utxo)
    (h : (s.addrStore x).isSome) :
    ((processOwn io st fee s u).addrStore x).isSome := by
  simp only [processOwn]
  split
  · exact h
  · by_cases hx : x = u.address <;> simp [hx, h]

/-- processOwn preserves every recorded outpoint at every address. -/
theorem processOwn_balMono {s : SyncState} {x : String} {io' : Inout}
    {st' : TxState} {pt' : String} (io : Inout) (st : TxState) (fee : Nat)
    (u : Utxo) (h : balHasPoint s x io' st' pt') :
    balHasPoint (processOwn io st fee s u) x io' st' pt' := by
  obtain ⟨b, hb, hpt⟩ := h
  simp only [processOwn]
  split
  · exact ⟨b, hb, hpt⟩
  · by_cases hx : x = u.address
    · subst hx
      apply balHasPoint_store_self
      rw [hb]
      simp only [Option.getD_some]
      split
      · rw [balance_feeUpdate_get]
        exact balance_addTxid_mono io st (utxoPoint io u) u.value hpt
      · exact balance_addTxid_mono io st (utxoPoint io u) u.value hpt
    · exact ⟨b, by simp [hx, hb], hpt⟩

/-- The own_addr flag assigned by a processUtxo iteration is the pure
ownership boolean of the incoming HD address set. -/
theorem item_flag (cfg : Config) (pathOpt : Option String) (io : Inout)
    (st : TxState) (fee : Nat) (s : SyncState) (u : Utxo) :
    (processUtxoItem cfg pathOpt io st fee s u).1
      = ownB cfg pathOpt s.hdAddrs u := by
  unfold processUtxoItem
  cases pathOpt with
  | none =>
    cases hb : s.hdAddrs u.address <;> simp [hb, ownB, pathMatches]
  | some p =>
    cases hb : s.hdAddrs u.address <;>
      by_cases hp : cfg.pathToAddr p = u.address <;>
        simp [hb, hp, ownB, pathMatches]

/-- A processUtxo iteration never touches the transaction log. -/
theorem item_txLog (cfg : Config) (pathOpt : Option String) (io : Inout)
    (st : TxState) (fee : Nat) (s : SyncState) (u : Utxo) :
    (processUtxoItem cfg pathOpt io st fee s u).2.txLog = s.txLog := by
  unfold processUtxoItem
  have hsn := (storeNewAddress_others s u.address).2.1
  split
  · rw [(processOwn_others _ _ _ _ _).2, hsn]
  · split
    · split
      · rw [(processOwn_others _ _ _ _ _).2]
        show (storeNewAddress s u.address).txLog = s.txLog
        exact hsn
      · exact hsn
    · exact hsn

/-- The HD address set after a processUtxo iteration: unchanged except that
the address of an owned utxo is now known. -/
theorem item_hd (cfg : Config) (pathOpt : Option String) (io : Inout)
    (st : TxState) (fee : Nat) (s : SyncState) (u : Utxo) (x : String) :
    (processUtxoItem cfg pathOpt io st fee s u).2.hdAddrs x
      = (s.hdAddrs x ||
          (ownB cfg pathOpt s.hdAddrs u && decide (x = u.address))) := by
  unfold processUtxoItem
  have hsn := (storeNewAddress_others s u.address).1
  have hpo : ∀ s' : SyncState,
      (processOwn io st fee s' u).hdAddrs = s'.hdAddrs :=
    fun s' => (processOwn_others io st fee s' u).1
  cases pathOpt with
  | none =>
    cases hb : s.hdAddrs u.address <;> by_cases hx : x = u.address <;>
      simp [hb, hx, ownB, pathMatches, hpo, hsn]
  | some p =>
    cases hb : s.hdAddrs u.address <;>
      by_cases hp : cfg.pathToAddr p = u.address <;>
        by_cases hx : x = u.address <;>
          simp [hb, hp, hx, ownB, pathMatches, hdAdd, hpo, hsn]

/-- The ownership boolean is invariant under a processUtxo iteration. -/
theorem item_own_stable (cfg : Config) (pathOpt : Option String)
    (io : Inout) (st : TxState) (fee : Nat) (s : SyncState) (u : Utxo) :
    ownB cfg pathOpt (processUtxoItem cfg pathOpt io st fee s u).2.hdAddrs
      = ownB cfg pathOpt s.hdAddrs := by
  funext v
  simp only [ownB]
  rw [item_hd cfg pathOpt io st fee s u v.address]
  by_cases hv : v.address = u.address
  · rw [pathMatches_congr cfg pathOpt hv, hv]
    cases h1 : s.hdAddrs u.address <;>
      cases h2 : pathMatches cfg pathOpt u <;>
        simp [ownB, h1, h2]
  · simp [hv]

/-- A processUtxo iteration preserves record existence at any address. -/
theorem item_addr_mono {cfg : Config} {pathOpt : Option String} {io : Inout}
    {st : TxState} {fee : Nat} {s : SyncState} {u : Utxo} {x : String}
    (h : (s.addrStore x).isSome) :
    ((processUtxoItem cfg pathOpt io st fee s u).2.addrStore x).isSome := by
  unfold processUtxoItem
  split
  · exact processOwn_mono io st fee u (storeNewAddress_mono u.address h)
  · split
    · split
      · show ((processOwn io st fee (hdAdd (storeNewAddress s u.address)
            u.address) u).addrStore x).isSome
        refine processOwn_mono io st fee u ?_
        rw [(hdAdd_others _ _).1]
        exact storeNewAddress_mono u.address h
      · exact storeNewAddress_mono u.address h
    · exact storeNewAddress_mono u.address h

/-- A processUtxo iteration preserves every recorded outpoint. -/
theorem item_bal_mono {cfg : Config} {pathOpt : Option String} {io : Inout}
    {st : TxState} {fee : Nat} {s : SyncState} {u : Utxo} {x : String}
    {io' : Inout} {st' : TxState} {pt' : String}
    (h : balHasPoint s x io' st' pt') :
    balHasPoint (processUtxoItem cfg pathOpt io st fee s u).2 x io' st'
      pt' := by
  unfold processUtxoItem
  split
  · exact processOwn_balMono io st fee u (storeNewAddress_balMono u.address h)
  · split
    · split
      · show balHasPoint (processOwn io st fee
            (hdAdd (storeNewAddress s u.address) u.address) u) x io' st' pt'
        refine processOwn_balMono io st fee u ?_
        obtain ⟨b, hb, hpt⟩ := storeNewAddress_balMono u.address h
        exact ⟨b, by rw [(hdAdd_others _ _).1]; exact hb, hpt⟩
      · exact storeNewAddress_balMono u.address h
    · exact storeNewAddress_balMono u.address h

/-- A processUtxo iteration without a path, unfolded. -/
theorem item_eq_none (cfg : Config) (io : Inout) (st : TxState) (fee : Nat)
    (s : SyncState) (u : Utxo) :
    processUtxoItem cfg none io st fee s u =
      if s.hdAddrs u.address then
        (true, processOwn io st fee (storeNewAddress s u.address) u)
      else (false, storeNewAddress s u.address) := rfl

/-- A processUtxo iteration with a path, unfolded. -/
theorem item_eq_some (cfg : Config) (p : String) (io : Inout) (st : TxState)
    (fee : Nat) (s : SyncState) (u : Utxo) :
    processUtxoItem cfg (some p) io st fee s u =
      if s.hdAddrs u.address then
        (true, processOwn io st fee (storeNewAddress s u.address) u)
      else if cfg.pathToAddr p = u.address then
        (true, processOwn io st fee
          (hdAdd (storeNewAddress s u.address) u.address) u)
      else (false, storeNewAddress s u.address) := rfl

/-- A processUtxo iteration keeps every known HD address known. -/
theorem item_hd_mono {cfg : Config} {pathOpt : Option String} {io : Inout}
    {st : TxState} {fee : Nat} {s : SyncState} {u : Utxo} {x : String}
    (h : s.hdAddrs x = true) :
    (processUtxoItem cfg pathOpt io st fee s u).2.hdAddrs x = true := by
  rw [item_hd]
  simp [h]

/-- A processUtxo iteration preserves the postcondition of any utxo. -/
theorem item_preserve {cfg : Config} {pathOpt : Option String} {io : Inout}
    {st : TxState} {fee : Nat} {s : SyncState} {u : Utxo} {io' : Inout}
    {st' : TxState} {v : Utxo}
    (h : ItemDone cfg pathOpt io' st' s v) :
    ItemDone cfg pathOpt io' st'
      (processUtxoItem cfg pathOpt io st fee s u).2 v := by
  obtain ⟨h1, h2⟩ := h
  constructor
  · intro hown
    rw [item_own_stable] at hown
    obtain ⟨ha, hbp⟩ := h1 hown
    exact ⟨item_hd_mono ha, item_bal_mono hbp⟩
  · intro hown
    rw [item_own_stable] at hown
    exact item_addr_mono (h2 hown)

/-- A processUtxo iteration establishes the postcondition of its utxo. -/
theorem item_establish (cfg : Config) (pathOpt : Option String) (io : Inout)
    (st : TxState) (fee : Nat) (s : SyncState) (u : Utxo) :
    ItemDone cfg pathOpt io st
      (processUtxoItem cfg pathOpt io st fee s u).2 u := by
  have haddr :
      ((processUtxoItem cfg pathOpt io st fee s u).2.addrStore
        u.address).isSome := by
    cases pathOpt with
    | none =>
      rw [item_eq_none]
      by_cases hb : s.hdAddrs u.address = true
      · rw [if_pos hb]
        exact processOwn_mono io st fee u (storeNewAddress_isSome s u.address)
      · rw [if_neg hb]
        exact storeNewAddress_isSome s u.address
    | some p =>
      rw [item_eq_some]
      by_cases hb : s.hdAddrs u.address = true
      · rw [if_pos hb]
        exact processOwn_mono io st fee u (storeNewAddress_isSome s u.address)
      · rw [if_neg hb]
        by_cases hp : cfg.pathToAddr p = u.address
        · rw [if_pos hp]
          refine processOwn_mono io st fee u ?_
          show ((hdAdd (storeNewAddress s u.address) u.address).addrStore
            u.address).isSome
          rw [(hdAdd_others _ _).1]
          exact storeNewAddress_isSome s u.address
        · rw [if_neg hp]
          exact storeNewAddress_isSome s u.address
  constructor
  · intro hown
    rw [item_own_stable] at hown
    refine ⟨?_, ?_⟩
    · rw [item_hd]
      simp [hown]
    · cases pathOpt with
      | none =>
        have hb : s.hdAddrs u.address = true := by
          simpa [ownB, pathMatches] using hown
        rw [item_eq_none, if_pos hb]
        exact processOwn_establish (storeNewAddress_isSome s u.address)
      | some p =>
        by_cases hb : s.hdAddrs u.address = true
        · rw [item_eq_some, if_pos hb]
          exact processOwn_establish (storeNewAddress_isSome s u.address)
        · have hb' : s.hdAddrs u.address = false := by
            cases h : s.hdAddrs u.address
            · rfl
            · exact absurd h hb
          have hp : cfg.pathToAddr p = u.address := by
            have hpm : pathMatches cfg (some p) u = true := by
              unfold ownB at hown
              rw [hb'] at hown
              simpa using hown
            rcases pathMatches_true.mp hpm with ⟨q, hq, hqa⟩
            cases hq
            exact hqa
          rw [item_eq_some, if_neg hb, if_pos hp]
          refine processOwn_establish ?_
          show ((hdAdd (storeNewAddress s u.address) u.address).addrStore
            u.address).isSome
          rw [(hdAdd_others _ _).1]
          exact storeNewAddress_isSome s u.address
  · intro _
    exact haddr

/-- A processUtxo iteration on a utxo whose postcondition already holds is
the identity on the state, and returns the pure ownership flag. -/
theorem item_identity {cfg : Config} {pathOpt : Option String} {io : Inout}
    {st : TxState} (fee : Nat) {s : SyncState} {u : Utxo}
    (hd : ItemDone cfg pathOpt io st s u) :
    processUtxoItem cfg pathOpt io st fee s u
      = (ownB cfg pathOpt s.hdAddrs u, s) := by
  obtain ⟨h1, h2⟩ := hd
  by_cases hown : ownB cfg pathOpt s.hdAddrs u = true
  · obtain ⟨ha, b, hb, hpt⟩ := h1 hown
    have hsn : storeNewAddress s u.address = s := by
      unfold storeNewAddress
      rw [if_pos (by simp [hb])]
    have hskip : ((((s.addrStore u.address).getD emptyBalance).get io) st
        (utxoPoint io u)).isSome := by
      rw [hb, Option.getD_some]
      exact hpt
    cases pathOpt with
    | none => rw [item_eq_none, if_pos ha, hsn, processOwn_skip hskip, hown]
    | some p => rw [item_eq_some, if_pos ha, hsn, processOwn_skip hskip, hown]
  · have hof : ownB cfg pathOpt s.hdAddrs u = false := by
      cases h : ownB cfg pathOpt s.hdAddrs u
      · rfl
      · exact absurd h hown
    have hrec := h2 hof
    have hsn : storeNewAddress s u.address = s := by
      unfold storeNewAddress
      rw [if_pos hrec]
    have hb' : ¬(s.hdAddrs u.address = true) := by
      intro hc
      unfold ownB at hof
      rw [hc] at hof
      simp at hof
    cases pathOpt with
    | none => rw [item_eq_none, if_neg hb', hsn, hof]
    | some p =>
      have hp : ¬(cfg.pathToAddr p = u.address) := by
        intro hc
        have hpm : pathMatches cfg (some p) u = true := by
          simp [pathMatches, hc]
        unfold ownB at hof
        rw [hpm] at hof
        simp at hof
      rw [item_eq_some, if_neg hb', if_neg hp, hsn, hof]

/-- processUtxo never touches the transaction log. -/
theorem pu_txLog (cfg : Config) (pathOpt : Option String) (io : Inout)
    (st : TxState) (fee : Nat) :
    ∀ (l : List Utxo) (s : SyncState),
      (processUtxo cfg pathOpt io st fee s l).2.txLog = s.txLog
  | [], _ => rfl
  | u :: us, s => by
    show (processUtxo cfg pathOpt io st fee
      (processUtxoItem cfg pathOpt io st fee s u).2 us).2.txLog = s.txLog
    rw [pu_txLog cfg pathOpt io st fee us _, item_txLog]

/-- The ownership boolean is invariant under processUtxo. -/
theorem pu_own_stable (cfg : Config) (pathOpt : Option String) (io : Inout)
    (st : TxState) (fee : Nat) :
    ∀ (l : List Utxo) (s : SyncState),
      ownB cfg pathOpt (processUtxo cfg pathOpt io st fee s l).2.hdAddrs
        = ownB cfg pathOpt s.hdAddrs
  | [], _ => rfl
  | u :: us, s => by
    show ownB cfg pathOpt (processUtxo cfg pathOpt io st fee
      (processUtxoItem cfg pathOpt io st fee s u).2 us).2.hdAddrs = _
    rw [pu_own_stable cfg pathOpt io st fee us _, item_own_stable]

/-- The flags assigned by processUtxo are the pure ownership booleans of
the incoming HD address set. -/
theorem pu_flags (cfg : Config) (pathOpt : Option String) (io : Inout)
    (st : TxState) (fee : Nat) :
    ∀ (l : List Utxo) (s : SyncState),
      (processUtxo cfg pathOpt io st fee s l).1
        = l.map (fun u => (u, ownB cfg pathOpt s.hdAddrs u))
  | [], _ => rfl
  | u :: us, s => by
    show ((u, (processUtxoItem cfg pathOpt io st fee s u).1) ::
        (processUtxo cfg pathOpt io st fee
          (processUtxoItem cfg pathOpt io st fee s u).2 us).1) = _
    rw [item_flag, pu_flags cfg pathOpt io st fee us _, item_own_stable]
    rfl

/-- processUtxo preserves the postcondition of any utxo. -/
theorem pu_preserve (cfg : Config) (pathOpt : Option String) (io : Inout)
    (st : TxState) (fee : Nat) :
    ∀ (l : List Utxo) (s : SyncState) {io' : Inout} {st' : TxState}
      {v : Utxo}, ItemDone cfg pathOpt io' st' s v →
        ItemDone cfg pathOpt io' st'
          (processUtxo cfg pathOpt io st fee s l).2 v
  | [], _, _, _, _, h => h
  | u :: us, s, io', st', v, h => by
    show ItemDone cfg pathOpt io' st' (processUtxo cfg pathOpt io st fee
      (processUtxoItem cfg pathOpt io st fee s u).2 us).2 v
    exact pu_preserve cfg pathOpt io st fee us _ (item_preserve h)

/-- processUtxo establishes the postcondition of every utxo of its list. -/
theorem pu_establish (cfg : Config) (pathOpt : Option String) (io : Inout)
    (st : TxState) (fee : Nat) :
    ∀ (l : List Utxo) (s : SyncState) (u : Utxo), u ∈ l →
      ItemDone cfg pathOpt io st (processUtxo cfg pathOpt io st fee s l).2 u
  | [], _, _, hmem => absurd hmem (List.not_mem_nil _)
  | u :: us, s, v, hmem => by
    show ItemDone cfg pathOpt io st (processUtxo cfg pathOpt io st fee
      (processUtxoItem cfg pathOpt io st fee s u).2 us).2 v
    rcases List.mem_cons.mp hmem with hv | hv
    · subst hv
      exact pu_preserve cfg pathOpt io st fee us _
        (item_establish cfg pathOpt io st fee s v)
    · exact pu_establish cfg pathOpt io st fee us _ v hv

/-- processUtxo on a list whose postconditions already hold is the identity
on the state and returns the pure ownership flags. -/
theorem pu_identity (cfg : Config) (pathOpt : Option String) (io : Inout)
    (st : TxState) (fee : Nat) :
    ∀ (l : List Utxo) (s : SyncState),
      (∀ u ∈ l, ItemDone cfg pathOpt io st s u) →
      processUtxo cfg pathOpt io st fee s l
        = (l.map (fun u => (u, ownB cfg pathOpt s.hdAddrs u)), s)
  | [], _, _ => rfl
  | u :: us, s, h => by
    have hu := item_identity fee (h u (List.mem_cons_self u us))
    show ((u, (processUtxoItem cfg pathOpt io st fee s u).1) ::
        (processUtxo cfg pathOpt io st fee
          (processUtxoItem cfg pathOpt io st fee s u).2 us).1,
        (processUtxo cfg pathOpt io st fee
          (processUtxoItem cfg pathOpt io st fee s u).2 us).2) = _
    rw [hu]
    rw [pu_identity cfg pathOpt io st fee us s
      (fun v hv => h v (List.mem_cons_of_mem u hv))]
    rfl

/-- The TxEntry the processHistory body builds, as a pure function of the
transaction and the incoming HD address set. -/
def pureEntry (cfg : Config) (pathOpt : Option String) (hd : String → Bool)
    (tx : Tx) : TxEntry :=
  { txid := tx.txid
    from_address := tx.inp.map (fun u => u.address)
    to_address := tx.out.map (fun u => u.address)
    fee := tx.fee
    amount := txAmount
      (classifyDirection (tx.out.map (fun u => (u, ownB cfg pathOpt hd u)))
        (tx.inp.map (fun u => (u, ownB cfg pathOpt hd u)))
        tx.out.length tx.inp.length)
      (tx.out.map (fun u => (u, ownB cfg pathOpt hd u)))
    height := tx.height
    direction :=
      classifyDirection (tx.out.map (fun u => (u, ownB cfg pathOpt hd u)))
        (tx.inp.map (fun u => (u, ownB cfg pathOpt hd u)))
        tx.out.length tx.inp.length
    to_address_meta :=
      (tx.out.map (fun u => (u, ownB cfg pathOpt hd u))).map
        (fun x => (x.1.value, x.2)) }

/-- The postcondition processHistory establishes for one transaction. -/
def TxDone (cfg : Config) (pathOpt : Option String) (s : SyncState)
    (tx : Tx) : Prop :=
  (∀ u ∈ tx.out,
    ItemDone cfg pathOpt .vout (getTxState cfg tx.height) s u) ∧
  (∀ u ∈ tx.inp,
    ItemDone cfg pathOpt .vin (getTxState cfg tx.height) s u)

/-- Updating the transaction log does not affect the HD address set. -/
theorem txLogUpdate_hd (s : SyncState) (L : String → Option TxEntry) :
    ({ s with txLog := L } : SyncState).hdAddrs = s.hdAddrs := rfl

/-- The postcondition of a utxo ignores the transaction log. -/
theorem ItemDone_txLogUpdate {cfg : Config} {pathOpt : Option String}
    {io : Inout} {st : TxState} {s : SyncState} {u : Utxo}
    (L : String → Option TxEntry) :
    ItemDone cfg pathOpt io st ({ s with txLog := L } : SyncState) u ↔
      ItemDone cfg pathOpt io st s u := Iff.rfl

/-- The entry built by the processHistory body is the pure entry of the
incoming HD address set. -/
theorem tx_fst (cfg : Config) (pathOpt : Option String) (s : SyncState)
    (tx : Tx) :
    (processHistoryTx cfg pathOpt s tx).1
      = pureEntry cfg pathOpt s.hdAddrs tx := by
  have h1 := pu_flags cfg pathOpt .vout (getTxState cfg tx.height) tx.fee
    tx.out s
  have hs := pu_own_stable cfg pathOpt .vout (getTxState cfg tx.height)
    tx.fee tx.out s
  have h2 := pu_flags cfg pathOpt .vin (getTxState cfg tx.height) 0 tx.inp
    (processUtxo cfg pathOpt .vout (getTxState cfg tx.height) tx.fee s
      tx.out).2
  rw [hs] at h2
  simp only [processHistoryTx, pureEntry, h1, h2]

/-- The transaction log after the processHistory body is the incoming log
with the pure entry stored under the txid. -/
theorem tx_txLog (cfg : Config) (pathOpt : Option String) (s : SyncState)
    (tx : Tx) :
    (processHistoryTx cfg pathOpt s tx).2.txLog
      = logSet tx.txid (pureEntry cfg pathOpt s.hdAddrs tx) s.txLog := by
  have hf := tx_fst cfg pathOpt s tx
  simp only [processHistoryTx] at hf ⊢
  rw [pu_txLog, pu_txLog, hf]

/-- The ownership boolean is invariant under the processHistory body. -/
theorem tx_own_stable (cfg : Config) (pathOpt : Option String)
    (s : SyncState) (tx : Tx) :
    ownB cfg pathOpt (processHistoryTx cfg pathOpt s tx).2.hdAddrs
      = ownB cfg pathOpt s.hdAddrs := by
  simp only [processHistoryTx, txLogUpdate_hd]
  rw [pu_own_stable, pu_own_stable]

/-- The processHistory body preserves the postcondition of any utxo. -/
theorem tx_preserve {cfg : Config} {pathOpt : Option String}
    {s : SyncState} {tx : Tx} {io' : Inout} {st' : TxState} {v : Utxo}
    (h : ItemDone cfg pathOpt io' st' s v) :
    ItemDone cfg pathOpt io' st' (processHistoryTx cfg pathOpt s tx).2 v := by
  simp only [processHistoryTx]
  rw [ItemDone_txLogUpdate]
  exact pu_preserve cfg pathOpt .vin (getTxState cfg tx.height) 0 tx.inp _
    (pu_preserve cfg pathOpt .vout (getTxState cfg tx.height) tx.fee tx.out
      s h)

/-- The processHistory body establishes the postcondition of its own
transaction. -/
theorem tx_establish (cfg : Config) (pathOpt : Option String)
    (s : SyncState) (tx : Tx) :
    TxDone cfg pathOpt (processHistoryTx cfg pathOpt s tx).2 tx := by
  constructor
  · intro u hu
    simp only [processHistoryTx]
    rw [ItemDone_txLogUpdate]
    exact pu_preserve cfg pathOpt .vin (getTxState cfg tx.height) 0 tx.inp _
      (pu_establish cfg pathOpt .vout (getTxState cfg tx.height) tx.fee
        tx.out s u hu)
  · intro u hu
    simp only [processHistoryTx]
    rw [ItemDone_txLogUpdate]
    exact pu_establish cfg pathOpt .vin (getTxState cfg tx.height) 0 tx.inp
      _ u hu

/-- The processHistory body on a transaction whose postcondition already
holds returns the pure entry and only stores it in the log. -/
theorem tx_identity {cfg : Config} {pathOpt : Option String} {s : SyncState}
    {tx : Tx} (h : TxDone cfg pathOpt s tx) :
    processHistoryTx cfg pathOpt s tx
      = (pureEntry cfg pathOpt s.hdAddrs tx,
         { s with txLog := (logSet tx.txid
            (pureEntry cfg pathOpt s.hdAddrs tx) s.txLog) }) := by
  obtain ⟨ho, hi⟩ := h
  have h1 := pu_identity cfg pathOpt .vout (getTxState cfg tx.height) tx.fee
    tx.out s ho
  have h2 := pu_identity cfg pathOpt .vin (getTxState cfg tx.height) 0
    tx.inp s hi
  simp only [processHistoryTx, h1, h2, pureEntry]

/-- The pairs of txid and pure entry processHistory stores for a
history. -/
def entryPairs (cfg : Config) (pathOpt : Option String)
    (hd : String → Bool) (txs : List Tx) : List (String × TxEntry) :=
  txs.map (fun t => (t.txid, pureEntry cfg pathOpt hd t))

/-- Storing a list of pairs into a transaction log in order. -/
def logSetAll (ps : List (String × TxEntry))
    (m : String → Option TxEntry) : String → Option TxEntry :=
  ps.foldl (fun acc p => logSet p.1 p.2 acc) m

/-- The pure entry depends on the HD address set only through the
ownership boolean. -/
theorem pureEntry_congr {cfg : Config} {pathOpt : Option String}
    {hd1 hd2 : String → Bool}
    (h : ownB cfg pathOpt hd1 = ownB cfg pathOpt hd2) (tx : Tx) :
    pureEntry cfg pathOpt hd1 tx = pureEntry cfg pathOpt hd2 tx := by
  unfold pureEntry
  rw [h]

/-- The entry pairs depend on the HD address set only through the
ownership boolean. -/
theorem entryPairs_congr {cfg : Config} {pathOpt : Option String}
    {hd1 hd2 : String → Bool}
    (h : ownB cfg pathOpt hd1 = ownB cfg pathOpt hd2) (txs : List Tx) :
    entryPairs cfg pathOpt hd1 txs = entryPairs cfg pathOpt hd2 txs := by
  unfold entryPairs pureEntry
  rw [h]

/-- The ownership boolean is invariant under processHistory. -/
theorem hist_own_stable (cfg : Config) (pathOpt : Option String) :
    ∀ (txs : List Tx) (s : SyncState),
      ownB cfg pathOpt (processHistory cfg pathOpt s txs).2.hdAddrs
        = ownB cfg pathOpt s.hdAddrs
  | [], _ => rfl
  | t :: ts, s => by
    show ownB cfg pathOpt (processHistory cfg pathOpt
      (processHistoryTx cfg pathOpt s t).2 ts).2.hdAddrs = _
    rw [hist_own_stable cfg pathOpt ts _, tx_own_stable]

/-- The transaction log after processHistory is the incoming log with all
pure entries stored in order. -/
theorem hist_txLog (cfg : Config) (pathOpt : Option String) :
    ∀ (txs : List Tx) (s : SyncState),
      (processHistory cfg pathOpt s txs).2.txLog
        = logSetAll (entryPairs cfg pathOpt s.hdAddrs txs) s.txLog
  | [], _ => rfl
  | t :: ts, s => by
    show (processHistory cfg pathOpt
      (processHistoryTx cfg pathOpt s t).2 ts).2.txLog = _
    rw [hist_txLog cfg pathOpt ts _,
      entryPairs_congr (tx_own_stable cfg pathOpt s t), tx_txLog]
    rfl

/-- processHistory preserves the postcondition of any utxo. -/
theorem hist_preserve (cfg : Config) (pathOpt : Option String) :
    ∀ (txs : List Tx) (s : SyncState) {io' : Inout} {st' : TxState}
      {v : Utxo}, ItemDone cfg pathOpt io' st' s v →
        ItemDone cfg pathOpt io' st'
          (processHistory cfg pathOpt s txs).2 v
  | [], _, _, _, _, h => h
  | t :: ts, s, io', st', v, h => by
    show ItemDone cfg pathOpt io' st' (processHistory cfg pathOpt
      (processHistoryTx cfg pathOpt s t).2 ts).2 v
    exact hist_preserve cfg pathOpt ts _ (tx_preserve h)

/-- processHistory preserves the postcondition of any transaction. -/
theorem hist_preserve_tx {cfg : Config} {pathOpt : Option String}
    (txs : List Tx) (s : SyncState) {tx : Tx}
    (h : TxDone cfg pathOpt s tx) :
    TxDone cfg pathOpt (processHistory cfg pathOpt s txs).2 tx :=
  ⟨fun u hu => hist_preserve cfg pathOpt txs s (h.1 u hu),
   fun u hu => hist_preserve cfg pathOpt txs s (h.2 u hu)⟩

/-- processHistory establishes the postcondition of every transaction of
its history. -/
theorem hist_establish (cfg : Config) (pathOpt : Option String) :
    ∀ (txs : List Tx) (s : SyncState) (tx : Tx), tx ∈ txs →
      TxDone cfg pathOpt (processHistory cfg pathOpt s txs).2 tx
  | [], _, _, hmem => absurd hmem (List.not_mem_nil _)
  | t :: ts, s, tx, hmem => by
    show TxDone cfg pathOpt (processHistory cfg pathOpt
      (processHistoryTx cfg pathOpt s t).2 ts).2 tx
    rcases List.mem_cons.mp hmem with hv | hv
    · subst hv
      exact hist_preserve_tx ts _ (tx_establish cfg pathOpt s tx)
    · exact hist_establish cfg pathOpt ts _ tx hv

/-- The postcondition of a transaction ignores the transaction log. -/
theorem TxDone_txLogUpdate {cfg : Config} {pathOpt : Option String}
    {s : SyncState} {tx : Tx} (L : String → Option TxEntry) :
    TxDone cfg pathOpt ({ s with txLog := L } : SyncState) tx ↔
      TxDone cfg pathOpt s tx := Iff.rfl

/-- processHistory on a history whose postconditions already hold changes
nothing but the transaction log, where it stores the same pure entries
again. -/
theorem hist_identity (cfg : Config) (pathOpt : Option String) :
    ∀ (txs : List Tx) (s : SyncState),
      (∀ tx ∈ txs, TxDone cfg pathOpt s tx) →
      (processHistory cfg pathOpt s txs).2
        = { s with txLog :=
            logSetAll (entryPairs cfg pathOpt s.hdAddrs txs) s.txLog }
  | [], s, _ => rfl
  | t :: ts, s, h => by
    have h1 := tx_identity (h t (List.mem_cons_self t ts))
    show (processHistory cfg pathOpt
      (processHistoryTx cfg pathOpt s t).2 ts).2 = _
    rw [h1]
    rw [hist_identity cfg pathOpt ts _
      (fun tx htx => (TxDone_txLogUpdate _).mpr (h tx
        (List.mem_cons_of_mem t htx)))]
    rfl

/-- The last value stored for a key by a pair list, if any. -/
def assocLast : List (String × TxEntry) → String → Option TxEntry
  | [], _ => none
  | p :: ps, t =>
    match assocLast ps t with
    | some v => some v
    | none => if p.1 = t then some p.2 else none

/-- Evaluating logSetAll: the last stored value wins, the incoming log
answers otherwise. -/
theorem logSetAll_apply :
    ∀ (ps : List (String × TxEntry)) (m : String → Option TxEntry)
      (t : String),
      logSetAll ps m t =
        match assocLast ps t with
        | some v => some v
        | none => m t
  | [], _, _ => rfl
  | p :: ps, m, t => by
    show logSetAll ps (logSet p.1 p.2 m) t = _
    rw [logSetAll_apply ps _ t]
    by_cases hpt : p.1 = t
    · cases hal : assocLast ps t <;>
        simp [assocLast, hal, hpt, logSet]
    · cases hal : assocLast ps t <;>
        simp [assocLast, hal, hpt, logSet, Ne.symm hpt]

/-- Storing the same pair list twice stores it once. -/
theorem logSetAll_replay (ps : List (String × TxEntry))
    (m : String → Option TxEntry) :
    logSetAll ps (logSetAll ps m) = logSetAll ps m := by
  funext t
  rw [logSetAll_apply, logSetAll_apply]
  cases hal : assocLast ps t <;> simp [hal]

/-- C2: feeding the same history to processHistory a second time
immediately after the first run leaves the whole state unchanged: every
outpoint is already recorded under its state bucket, so processUtxo skips
every item and the address store, the unspent store, the total balance and
the transaction log keep their values. -/
theorem processHistory_idempotent (cfg : Config) (pathOpt : Option String)
    (s : SyncState) (txs : List Tx) :
    (processHistory cfg pathOpt
      (processHistory cfg pathOpt s txs).2 txs).2
      = (processHistory cfg pathOpt s txs).2 := by
  have hdone : ∀ tx ∈ txs,
      TxDone cfg pathOpt (processHistory cfg pathOpt s txs).2 tx :=
    fun tx htx => hist_establish cfg pathOpt txs s tx htx
  have hid := hist_identity cfg pathOpt txs
    (processHistory cfg pathOpt s txs).2 hdone
  rw [hid]
  rw [entryPairs_congr (hist_own_stable cfg pathOpt txs s)]
  rw [hist_txLog cfg pathOpt txs s, logSetAll_replay]
  rw [← hist_txLog cfg pathOpt txs s]

end BtcWallet
